import Mathlib

/-!
Verification development for the linknower clustering core.

The definitions below are a shallow embedding of the Python source:

* `linknower/domain/models.py`   — `Event`, `Cluster` records
* `linknower/ml/__init__.py`     — `FeatureEngineer`, `ClusteringEngine`
* `linknower/services/__init__.py` — `ClusterService.cluster_events`
* `linknower/data/repositories.py` — SQLite stores (INSERT OR REPLACE keyed by id)

Python floats are modelled as rationals, UUIDs as naturals, datetimes as
rational seconds since the epoch.  External algorithms (UMAP, HDBSCAN, the
embedding model) are modelled as oracle function parameters, exactly at the
call boundary the source uses.  The iteration order of a Python `set` is
unspecified at runtime, so it is passed in as an explicit order parameter.
-/

namespace LinkNower

attribute [local semireducible] Rat.add Rat.sub Rat.mul Rat.inv

/-- Event type enumeration, from `EventType` in `domain/models.py`. -/
inductive EventType where
  | browser
  | command
  | commit
deriving DecidableEq, Repr

/-- A workflow event, from `Event` in `domain/models.py`.  The `id` stands for
the UUID, `timestamp` for the datetime as rational seconds since the epoch.
The string-map `metadata` field is carried along untouched by the core. -/
structure Event where
  id : Nat
  type : EventType
  timestamp : ℚ
  content : String
  metadata : List (String × String) := []
  embeddingId : Option Nat := none
  clusterId : Option Int := none
  cwd : Option String := none
deriving DecidableEq, Repr

instance : Inhabited Event :=
  ⟨{ id := 0, type := EventType.browser, timestamp := 0, content := "" }⟩

/-- A persisted cluster summary, from `Cluster` in `domain/models.py`. -/
structure Cluster where
  id : Int
  label : String
  eventCount : Nat
  startTime : ℚ
  endTime : ℚ
  representativeEvents : List Nat
  metadata : List (String × String) := []
deriving DecidableEq, Repr

/-- The errors raised by the embedded code paths.  `weightsError` carries the
offending total, mirroring the message of the `ValueError` raised by
`FeatureEngineer.__init__`; `shapeMismatchError` is the `ValueError` of
`combine_features`; `emptyBatchError` is the numpy error raised by
`timestamps.min()` on an empty batch; `emptyClusterError` is the `ValueError`
of `generate_cluster_summary`; `saveFailedError` stands for a storage-layer
exception escaping from a repository `save` call. -/
inductive LinkError where
  | weightsError (total : ℚ)
  | shapeMismatchError
  | emptyBatchError
  | emptyClusterError
  | saveFailedError
deriving DecidableEq, Repr

/-- Python `str.lower()` on ASCII content. -/
def pyLower (s : String) : String :=
  ⟨s.data.map Char.toLower⟩

/-- Helper for `pyTitle`: the boolean records whether the previous character
was a cased (alphabetic) character, as in the CPython `str.title` loop. -/
def pyTitleAux : Bool → List Char → List Char
  | _, [] => []
  | prevCased, c :: cs =>
    if c.isAlpha then
      (if prevCased then c.toLower else c.toUpper) :: pyTitleAux true cs
    else
      c :: pyTitleAux false cs

/-- Python `str.title()` on ASCII content. -/
def pyTitle (s : String) : String :=
  ⟨pyTitleAux false s.data⟩

/-- Split a character list at every character satisfying `p`, keeping empty
pieces (they are filtered by the callers, as Python `str.split()` does). -/
def splitChars (p : Char → Bool) : List Char → List (List Char)
  | [] => [[]]
  | c :: cs =>
    let r := splitChars p cs
    if p c then [] :: r else (c :: r.headI) :: r.tail

/-- Python `str.split()` with no separator: split on whitespace runs and drop
empty pieces. -/
def pySplitWs (s : String) : List String :=
  ((splitChars (fun c => c.isWhitespace) s.data).map String.mk).filter (· ≠ "")

/-- The tokens one event contributes to label generation, from
`ClusteringEngine._generate_label`: whitespace-split the content, keep the
words longer than 3 characters, lower-case them. -/
def tokensOf (e : Event) : List String :=
  ((pySplitWs e.content).filter (fun w => w.length > 3)).map pyLower

/-- The distinct elements of a list in first-occurrence order: the key order
of a Python `Counter` (an insertion-ordered dict). -/
def firstOccurrences {α : Type} [DecidableEq α] (l : List α) : List α :=
  l.foldl (fun acc w => if w ∈ acc then acc else acc ++ [w]) []

/-- The items of `Counter(l)` in insertion order, each with its count. -/
def counterItems (l : List String) : List (String × Nat) :=
  (firstOccurrences l).map (fun w => (w, l.count w))

/-- Descending-count comparison used by `Counter.most_common`. -/
def countGe (a b : String × Nat) : Prop := b.2 ≤ a.2

instance : DecidableRel countGe := fun a b => inferInstanceAs (Decidable (b.2 ≤ a.2))

instance : IsTotal (String × Nat) countGe := ⟨fun a b => le_total b.2 a.2⟩

instance : IsTrans (String × Nat) countGe := ⟨fun _ _ _ h h2 => le_trans h2 h⟩

/-- `Counter(l).most_common(n)`: stable descending sort of the counter items
by count (ties keep first-encountered order), truncated to `n`. -/
def mostCommon (l : List String) (n : Nat) : List (String × Nat) :=
  (List.insertionSort countGe (counterItems l)).take n

/-- `ClusteringEngine._generate_label`, translated statement by statement. -/
def generateLabel (events : List Event) : String :=
  let allWords := events.flatMap tokensOf
  if allWords = [] then "Miscellaneous Activity"
  else
    let topWords := (mostCommon allWords 3).map Prod.fst
    if topWords.length ≥ 2 then
      pyTitle (topWords.headI) ++ " & " ++ pyTitle (topWords.tail.headI)
    else if topWords.length = 1 then
      pyTitle (topWords.headI)
    else "Miscellaneous Activity"

/-- Chronological comparison on events, the sort key of
`generate_cluster_summary`. -/
def timeLe (a b : Event) : Prop := a.timestamp ≤ b.timestamp

instance : DecidableRel timeLe := fun a b => inferInstanceAs (Decidable (a.timestamp ≤ b.timestamp))

instance : IsTotal Event timeLe := ⟨fun a b => le_total a.timestamp b.timestamp⟩

instance : IsTrans Event timeLe := ⟨fun _ _ _ h h2 => le_trans h h2⟩

/-- Python `sorted(events, key=lambda e: e.timestamp)`: a stable sort by
timestamp. -/
def sortByTime (events : List Event) : List Event :=
  List.insertionSort timeLe events

/-- The body of `ClusteringEngine.generate_cluster_summary` on a non-empty
member list. -/
def summarizeCore (clusterId : Int) (events : List Event) : Cluster :=
  let sorted := sortByTime events
  { id := clusterId
    label := generateLabel sorted
    eventCount := events.length
    startTime := sorted.headI.timestamp
    endTime := (sorted.getLastD default).timestamp
    representativeEvents := (sorted.take 3).map Event.id
    metadata := [] }

/-- `ClusteringEngine.generate_cluster_summary`: raises on an empty member
list, otherwise builds the summary. -/
def generateClusterSummary (clusterId : Int) (events : List Event) :
    Except LinkError Cluster :=
  if events = [] then .error .emptyClusterError
  else .ok (summarizeCore clusterId events)

/-- The epsilon of the normalization formulas in `ml/__init__.py` (1e-6). -/
def EPS : ℚ := 1 / 1000000

/-- Column minimum, `features.min(axis=0)` for one column. -/
def colMin : List ℚ → ℚ
  | [] => 0
  | x :: xs => xs.foldl min x

/-- Column maximum, `features.max(axis=0)` for one column. -/
def colMax : List ℚ → ℚ
  | [] => 0
  | x :: xs => xs.foldl max x

/-- `FeatureEngineer._normalize` on one column:
`(x - min) / (max - min + 1e-6)`. -/
def normalizeCol (c : List ℚ) : List ℚ :=
  c.map (fun x => (x - colMin c) / (colMax c - colMin c + EPS))

/-- Multiply one feature column by a weight. -/
def scaleCol (w : ℚ) (c : List ℚ) : List ℚ :=
  c.map (fun x => x * w)

/-- The temporal feature column of `combine_features`:
`(timestamps - timestamps.min()) / (timestamps.max() - timestamps.min() + 1e-6)`. -/
def timeFeatures (events : List Event) : List ℚ :=
  let ts := events.map Event.timestamp
  ts.map (fun t => (t - colMin ts) / (colMax ts - colMin ts + EPS))

/-- One one-hot column of `_extract_context_features` for a given event type. -/
def typeCol (t : EventType) (events : List Event) : List ℚ :=
  events.map (fun e => if e.type = t then 1 else 0)

/-- `max(set(cwds), key=cwds.count) if cwds else None` from
`_extract_context_features`.  `order` is the iteration order of the Python
set `set(cwds)`, which is unspecified at runtime and therefore an explicit
parameter here; `max` keeps the first element of the iteration attaining the
maximal count, replacing only on a strictly greater key. -/
def mostCommonCwd (order : List (Option String)) (cwds : List (Option String)) :
    Option String :=
  if cwds = [] then none
  else
    match order with
    | [] => none
    | x :: xs => xs.foldl (fun acc y => if cwds.count y > cwds.count acc then y else acc) x

/-- One entry of the binary cwd column: `if event.cwd and event.cwd ==
most_common_cwd` (an absent or empty cwd is falsy in Python). -/
def cwdIndicator (mc : Option String) (e : Event) : ℚ :=
  match e.cwd with
  | none => 0
  | some c => if c ≠ "" ∧ some c = mc then 1 else 0

/-- `FeatureEngineer._extract_context_features` as a list of four columns:
three one-hot event-type columns and the binary cwd column.  `sof` maps the
cwd list to the iteration order of `set(cwds)`. -/
def extractContextFeatures (sof : List (Option String) → List (Option String))
    (events : List Event) : List (List ℚ) :=
  let cwds := events.map Event.cwd
  let mc := mostCommonCwd (sof cwds) cwds
  [typeCol EventType.browser events,
   typeCol EventType.command events,
   typeCol EventType.commit events,
   events.map (cwdIndicator mc)]

/-- The weight configuration held by a constructed `FeatureEngineer`. -/
structure FeatureEngineer where
  timeWeight : ℚ
  semanticWeight : ℚ
  contextWeight : ℚ
deriving DecidableEq, Repr

/-- `FeatureEngineer.__init__`: rejects weights whose total differs from 1.0
by more than 0.01, raising the weights `ValueError` with the total. -/
def mkFeatureEngineer (timeWeight semanticWeight contextWeight : ℚ) :
    Except LinkError FeatureEngineer :=
  let total := timeWeight + semanticWeight + contextWeight
  if |total - 1| > 1 / 100 then .error (.weightsError total)
  else .ok ⟨timeWeight, semanticWeight, contextWeight⟩

/-- `FeatureEngineer.combine_features`, with the matrix represented as a list
of columns (every operation of the source is column-wise): the time column,
the embedding columns and the context columns are each normalized with
`_normalize`, scaled by their weight, and concatenated. -/
def combineFeatures (fe : FeatureEngineer)
    (sof : List (Option String) → List (Option String))
    (events : List Event) (embeddings : List (List ℚ)) :
    Except LinkError (List (List ℚ)) :=
  if events.length ≠ embeddings.length then .error .shapeMismatchError
  else if events = [] then .error .emptyBatchError
  else .ok
    (([normalizeCol (timeFeatures events)]).map (scaleCol fe.timeWeight)
      ++ ((embeddings.transpose).map normalizeCol).map (scaleCol fe.semanticWeight)
      ++ ((extractContextFeatures sof events).map normalizeCol).map (scaleCol fe.contextWeight))

/-- The parameters held by a constructed `ClusteringEngine`. -/
structure ClusteringEngine where
  nNeighbors : Nat
  minClusterSize : Nat
  minSamples : Int
deriving DecidableEq, Repr

/-- `ClusteringEngine.__init__`: `self.min_samples = min_samples or
min_cluster_size`, so an omitted (`None`) or zero (falsy) `min_samples`
falls back to `min_cluster_size`. -/
def mkClusteringEngine (nNeighbors minClusterSize : Nat) (minSamples : Option Int) :
    ClusteringEngine :=
  { nNeighbors := nNeighbors
    minClusterSize := minClusterSize
    minSamples :=
      match minSamples with
      | none => (minClusterSize : Int)
      | some v => if v = 0 then (minClusterSize : Int) else v }

/-- The `clusters` dict of `ClusteringEngine.cluster`: group the labelled
events into an insertion-ordered association list, appending each event to
the group of its label. -/
def groupByLabel (pairs : List (Event × Int)) : List (Int × List Event) :=
  pairs.foldl
    (fun acc p =>
      if acc.any (fun g => g.1 = p.2) then
        acc.map (fun g => if g.1 = p.2 then (g.1, g.2 ++ [p.1]) else g)
      else acc ++ [(p.2, [p.1])])
    []

/-- `ClusteringEngine.cluster`.  The UMAP reduction and the HDBSCAN
`fit_predict` are third-party algorithms, modelled as the oracles `reduceFn`
(given `n_neighbors` and the feature matrix) and `fitPredict` (given
`min_cluster_size`, `min_samples` and the reduced matrix, returning one label
per row).  With fewer events than `min_cluster_size` everything is returned
as the noise group without consulting either oracle. -/
def ClusteringEngine.cluster (eng : ClusteringEngine)
    (reduceFn : Nat → List (List ℚ) → List (List ℚ))
    (fitPredict : Nat → Int → List (List ℚ) → List Int)
    (events : List Event) (features : List (List ℚ)) : List (Int × List Event) :=
  if events.length < eng.minClusterSize then [(-1, events)]
  else
    groupByLabel
      (events.zip (fitPredict eng.minClusterSize eng.minSamples (reduceFn eng.nNeighbors features)))

/-- The persistent state the `ClusterService` reads and writes: the event
store contents (in the order `get_all` returns them) and the cluster store
contents. -/
structure StoreState where
  events : List Event
  clusters : List Cluster
deriving DecidableEq, Repr

/-- The dictionary returned by `ClusterService.cluster_events`. -/
structure RunResult where
  clusters : Nat
  noise : Nat
deriving DecidableEq, Repr

/-- `SQLiteClusterRepository.save`: INSERT OR REPLACE keyed by the cluster id. -/
def saveClusterStore (cs : List Cluster) (c : Cluster) : List Cluster :=
  if cs.any (fun d => d.id = c.id) then cs.map (fun d => if d.id = c.id then c else d)
  else cs ++ [c]

/-- One event of `SQLiteEventRepository.save_many`: INSERT OR REPLACE keyed by
the event id. -/
def saveEventOne (es : List Event) (e : Event) : List Event :=
  if es.any (fun d => d.id = e.id) then es.map (fun d => if d.id = e.id then e else d)
  else es ++ [e]

/-- `SQLiteEventRepository.save_many` over a batch. -/
def saveEventStore (es : List Event) (batch : List Event) : List Event :=
  batch.foldl saveEventOne es

/-- `event.cluster_id = cluster_id` on one event. -/
def setCid (k : Int) (e : Event) : Event :=
  { e with clusterId := some k }

/-- The collaborators of a `ClusterService` run: the embedding capability
(`embed_many`, one vector per content string), the set-iteration-order
oracle for `_extract_context_features`, the constructed feature engineer and
clustering engine, and the two third-party algorithm oracles. -/
structure ClusterServiceModel where
  embedFn : String → List ℚ
  setOrderFn : List (Option String) → List (Option String)
  fe : FeatureEngineer
  engine : ClusteringEngine
  reduceFn : Nat → List (List ℚ) → List (List ℚ)
  fitPredict : Nat → Int → List (List ℚ) → List Int

/-- The feature-fusion and clustering stages of `cluster_events`: embed all
contents, combine the features, run the clustering engine. -/
def pipelineGroups (m : ClusterServiceModel) (events : List Event) :
    Except LinkError (List (Int × List Event)) :=
  match combineFeatures m.fe m.setOrderFn events (events.map (fun e => m.embedFn e.content)) with
  | .error e => .error e
  | .ok feats => .ok (m.engine.cluster m.reduceFn m.fitPredict events feats)

/-- The persistence loop of `cluster_events` over the grouped clusters.  The
noise group `-1` only sets the noise count.  Every other group is summarized
and immediately saved to the cluster store; then its member events receive
the cluster id and are written back to the event store.  `saveOk` injects
storage-layer failures: when the `n`-th cluster-store save raises, the
exception propagates with every earlier effect already committed (each
repository call commits its own SQLite transaction). -/
def persistLoop (saveOk : Nat → Bool) (groups : List (Int × List Event))
    (st : StoreState) (saveIdx numClusters noiseCount : Nat) :
    Except (LinkError × StoreState) (RunResult × StoreState) :=
  match groups with
  | [] => .ok ({ clusters := numClusters, noise := noiseCount }, st)
  | (cid, evs) :: rest =>
    if cid = -1 then persistLoop saveOk rest st saveIdx numClusters evs.length
    else
      match generateClusterSummary cid evs with
      | .error e => .error (e, st)
      | .ok c =>
        if saveOk saveIdx then
          let st1 : StoreState := { st with clusters := saveClusterStore st.clusters c }
          let st2 : StoreState := { st1 with events := saveEventStore st1.events (evs.map (setCid cid)) }
          persistLoop saveOk rest st2 (saveIdx + 1) (numClusters + 1) noiseCount
        else .error (.saveFailedError, st)

/-- `ClusterService.cluster_events`: fast exit below 5 events, then the
pipeline stages followed by the persistence loop.  The second early return
(`if not valid_events`) is unreachable after the first but kept for
faithfulness. -/
def clusterEvents (m : ClusterServiceModel) (saveOk : Nat → Bool) (st : StoreState) :
    Except (LinkError × StoreState) (RunResult × StoreState) :=
  let events := st.events
  if events.length < 5 then .ok ({ clusters := 0, noise := events.length }, st)
  else if events = [] then .ok ({ clusters := 0, noise := 0 }, st)
  else
    match pipelineGroups m events with
    | .error e => .error (e, st)
    | .ok groups => persistLoop saveOk groups st 0 0 0

/-- The groups of a clustering result that are persisted: everything except
the noise group `-1`. -/
def nonNoiseGroups (groups : List (Int × List Event)) : List (Int × List Event) :=
  groups.filter (fun g => g.1 ≠ -1)

/-- Apply the summaries of the given groups to a cluster store, in order. -/
def applySummaries (cs : List Cluster) (groups : List (Int × List Event)) : List Cluster :=
  groups.foldl (fun acc g => saveClusterStore acc (summarizeCore g.1 g.2)) cs

/-- The keys of the `clusters` dict of `ClusteringEngine.cluster` in insertion
order: the distinct labels in first-occurrence order. -/
def firstKeys (pairs : List (Event × Int)) : List Int :=
  pairs.foldl (fun ks p => if p.2 ∈ ks then ks else ks ++ [p.2]) []

/-- The events carrying a given label, in order. -/
def selectKey (pairs : List (Event × Int)) (k : Int) : List Event :=
  (pairs.filter (fun p => p.2 = k)).map Prod.fst

/-- The grouped form of a labelled event list: one entry per distinct label in
first-occurrence order, carrying the events of that label in order.  Proved
equal to `groupByLabel`. -/
def groupsOf (pairs : List (Event × Int)) : List (Int × List Event) :=
  (firstKeys pairs).map (fun k => (k, selectKey pairs k))

/-! Spec-side definitions, used only to compare the code against the words of
the specification where the two may differ. -/

/-- Modelled from the spec: the label tokens of one member, tokenized on
non-alphanumeric boundaries, lower-cased, with tokens of length at most 3
discarded (spec section 4.4). -/
def specTokensOf (e : Event) : List String :=
  ((((splitChars (fun c => !c.isAlphanum) e.content.data).map String.mk).filter
        (· ≠ "")).map pyLower).filter (fun w => w.length > 3)

/-- Modelled from the spec: the label-generation algorithm of spec section
4.4, identical to the code except for the tokenizer. -/
def specGenerateLabel (events : List Event) : String :=
  let allWords := events.flatMap specTokensOf
  let topWords := (mostCommon allWords 3).map Prod.fst
  if topWords.length ≥ 2 then
    pyTitle (topWords.headI) ++ " & " ++ pyTitle (topWords.tail.headI)
  else if topWords.length = 1 then
    pyTitle (topWords.headI)
  else "Miscellaneous Activity"

/-- Modelled from the spec: the most frequent cwd with ties broken by
first-encountered order (spec sections 4.1 and 9). -/
def specMostFrequentCwd (cwds : List (Option String)) : Option String :=
  match firstOccurrences cwds with
  | [] => none
  | x :: xs => xs.foldl (fun acc y => if cwds.count y > cwds.count acc then y else acc) x

/-- A list is a possible iteration order of the Python set of the elements of
`cwds`: it enumerates exactly the distinct elements, once each, in some
order. -/
def validSetOrder (order cwds : List (Option String)) : Prop :=
  order.Nodup ∧ (∀ x ∈ order, x ∈ cwds) ∧ ∀ x ∈ cwds, x ∈ order

instance (order cwds : List (Option String)) : Decidable (validSetOrder order cwds) :=
  decidable_of_iff (order.Nodup ∧ (∀ x ∈ order, x ∈ cwds) ∧ ∀ x ∈ cwds, x ∈ order) Iff.rfl

/-! Concrete scenario data used by witnesses and counterexamples. -/

/-- A plain event with a given id, timestamp and no cwd. -/
def mkEv (i : Nat) (t : ℚ) : Event :=
  { id := i, type := EventType.browser, timestamp := t, content := "aaaa" }

/-- Default-weight feature engineer, the values accepted by the constructor
defaults (0.3, 0.5, 0.2). -/
def feDefault : FeatureEngineer := ⟨3 / 10, 1 / 2, 1 / 5⟩

/-- Default clustering engine parameters (15, 5, 5). -/
def engDefault : ClusteringEngine := ⟨15, 5, 5⟩

/-- A service model whose clusterer labels ten events as two clusters of five. -/
def mRunA : ClusterServiceModel :=
  { embedFn := fun _ => [0]
    setOrderFn := firstOccurrences
    fe := feDefault
    engine := engDefault
    reduceFn := fun _ x => x
    fitPredict := fun _ _ _ => [0, 0, 0, 0, 0, 1, 1, 1, 1, 1] }

/-- The same service model, except the clusterer now labels all ten events as
one cluster `0`. -/
def mRunB : ClusterServiceModel :=
  { mRunA with fitPredict := fun _ _ _ => List.replicate 10 0 }

/-- Every repository save succeeds. -/
def allSavesOk : Nat → Bool := fun _ => true

/-- The first cluster-store save succeeds, the second raises. -/
def secondSaveFails : Nat → Bool := fun k => k == 0

/-- An initial store: ten unclustered events, no clusters. -/
def stRun0 : StoreState :=
  { events := (List.range 10).map (fun i => mkEv i (i : ℚ)), clusters := [] }

/-- The state after the first successful run (`mRunA` on `stRun0`). -/
def stRunA : StoreState :=
  match clusterEvents mRunA allSavesOk stRun0 with
  | .ok (_, s) => s
  | .error (_, s) => s

/-- The state after the second successful run (`mRunB` on `stRunA`). -/
def stRunB : StoreState :=
  match clusterEvents mRunB allSavesOk stRunA with
  | .ok (_, s) => s
  | .error (_, s) => s

/-- The state at the moment the aborted run (`mRunA` with a failing second
save) raised. -/
def stRunFail : StoreState :=
  match clusterEvents mRunA secondSaveFails stRun0 with
  | .ok (_, s) => s
  | .error (_, s) => s

/-- The single event of the label tokenization scenario. -/
def evC3 : Event :=
  { id := 1, type := EventType.browser, timestamp := 0, content := "git-commit-foo" }

/-- Four events whose cwds are a, b, a, b: the two cwds are tied with count
two each, and a is encountered first. -/
def evsC4 : List Event :=
  [{ mkEv 0 0 with cwd := some "a" }, { mkEv 1 1 with cwd := some "b" },
   { mkEv 2 2 with cwd := some "a" }, { mkEv 3 3 with cwd := some "b" }]

/-- A possible set iteration order putting b before a. -/
def sofC4 : List (Option String) → List (Option String) :=
  fun _ => [some "b", some "a"]

/-- A weight triple accepted by the constructor (total 1.005, within the 0.01
tolerance) whose time weight exceeds 1. -/
def feC5 : FeatureEngineer := ⟨201 / 200, 0, 0⟩

/-- Two events one second apart for the bounds scenario. -/
def evsC5 : List Event := [mkEv 0 0, mkEv 1 1]

/-- The matrix produced by `combine_features` in the bounds scenario. -/
def matC5 : List (List ℚ) :=
  match combineFeatures feC5 firstOccurrences evsC5 [[0], [0]] with
  | .ok mat => mat
  | .error _ => []

/-- The matrix produced by `combine_features` with the default weights on the
same two events. -/
def matC5w : List (List ℚ) :=
  match combineFeatures feDefault firstOccurrences evsC5 [[0], [0]] with
  | .ok mat => mat
  | .error _ => []

/-- A three-event store for the fast-exit witness. -/
def stThree : StoreState :=
  { events := [mkEv 0 0, mkEv 1 1, mkEv 2 2], clusters := [] }

/-! Helper lemmas. -/

lemma foldl_min_le_init (a : ℚ) (l : List ℚ) : l.foldl min a ≤ a := by
  induction l generalizing a with
  | nil => exact le_refl a
  | cons x xs ih => exact le_trans (ih (min a x)) (min_le_left a x)

lemma foldl_min_le_mem {x : ℚ} (a : ℚ) {l : List ℚ} (hx : x ∈ l) : l.foldl min a ≤ x := by
  induction l generalizing a with
  | nil => cases hx
  | cons y ys ih =>
    rcases List.mem_cons.mp hx with h | h
    · subst h
      exact le_trans (foldl_min_le_init (min a x) ys) (min_le_right a x)
    · exact ih (min a y) h

lemma init_le_foldl_max (a : ℚ) (l : List ℚ) : a ≤ l.foldl max a := by
  induction l generalizing a with
  | nil => exact le_refl a
  | cons x xs ih => exact le_trans (le_max_left a x) (ih (max a x))

lemma mem_le_foldl_max {x : ℚ} (a : ℚ) {l : List ℚ} (hx : x ∈ l) : x ≤ l.foldl max a := by
  induction l generalizing a with
  | nil => cases hx
  | cons y ys ih =>
    rcases List.mem_cons.mp hx with h | h
    · subst h
      exact le_trans (le_max_right a x) (init_le_foldl_max (max a x) ys)
    · exact ih (max a y) h

lemma colMin_le_of_mem {x : ℚ} {c : List ℚ} (hx : x ∈ c) : colMin c ≤ x := by
  cases c with
  | nil => cases hx
  | cons y ys =>
    rcases List.mem_cons.mp hx with h | h
    · subst h
      exact foldl_min_le_init x ys
    · exact foldl_min_le_mem y h

lemma le_colMax_of_mem {x : ℚ} {c : List ℚ} (hx : x ∈ c) : x ≤ colMax c := by
  cases c with
  | nil => cases hx
  | cons y ys =>
    rcases List.mem_cons.mp hx with h | h
    · subst h
      exact init_le_foldl_max x ys
    · exact mem_le_foldl_max y h

lemma normalizeCol_mem_unit {x : ℚ} {c : List ℚ} (hx : x ∈ normalizeCol c) :
    0 ≤ x ∧ x ≤ 1 := by
  rcases List.mem_map.mp hx with ⟨y, hy, rfl⟩
  have hmin := colMin_le_of_mem hy
  have hmax := le_colMax_of_mem hy
  have heps : (0 : ℚ) < EPS := by norm_num [EPS]
  have hd : 0 < colMax c - colMin c + EPS := by linarith
  constructor
  · exact div_nonneg (by linarith) (le_of_lt hd)
  · rw [div_le_one hd]
    linarith

lemma scaleCol_normalize_mem_unit {w x : ℚ} {c : List ℚ} (hw0 : 0 ≤ w) (hw1 : w ≤ 1)
    (hx : x ∈ scaleCol w (normalizeCol c)) : 0 ≤ x ∧ x ≤ 1 := by
  rcases List.mem_map.mp hx with ⟨y, hy, rfl⟩
  obtain ⟨h0, h1⟩ := normalizeCol_mem_unit hy
  exact ⟨mul_nonneg h0 hw0, mul_le_one₀ h1 hw0 hw1⟩

/-! Claim theorems. -/

/-- C5, amended: for every input accepted by `combine_features`, if each of
the three weights lies in [0, 1] (the defaults do), then every entry of every
column of the returned matrix lies in [0, 1].  The original claim assumed
only non-negative weights; a weight above 1 passing the constructor tolerance
breaks it, see the counterexample. -/
theorem combine_features_unit_interval (fe : FeatureEngineer)
    (sof : List (Option String) → List (Option String))
    (events : List Event) (embeddings : List (List ℚ)) (mat : List (List ℚ))
    (h : combineFeatures fe sof events embeddings = .ok mat)
    (hw : 0 ≤ fe.timeWeight ∧ fe.timeWeight ≤ 1 ∧ 0 ≤ fe.semanticWeight ∧
      fe.semanticWeight ≤ 1 ∧ 0 ≤ fe.contextWeight ∧ fe.contextWeight ≤ 1) :
    ∀ col ∈ mat, ∀ x ∈ col, 0 ≤ x ∧ x ≤ 1 := by
  obtain ⟨ht0, ht1, hs0, hs1, hc0, hc1⟩ := hw
  simp only [combineFeatures] at h
  split_ifs at h
  injection h with h
  subst h
  intro col hcol x hx
  rcases List.mem_append.mp hcol with hab | hc
  · rcases List.mem_append.mp hab with ha | hb
    · rcases List.mem_map.mp ha with ⟨c, hc2, rfl⟩
      rcases List.mem_singleton.mp hc2 with rfl
      exact scaleCol_normalize_mem_unit ht0 ht1 hx
    · rcases List.mem_map.mp hb with ⟨nc, hnc, rfl⟩
      rcases List.mem_map.mp hnc with ⟨c, hc2, rfl⟩
      exact scaleCol_normalize_mem_unit hs0 hs1 hx
  · rcases List.mem_map.mp hc with ⟨nc, hnc, rfl⟩
    rcases List.mem_map.mp hnc with ⟨c, hc2, rfl⟩
    exact scaleCol_normalize_mem_unit hc0 hc1 hx

/-- Witness for C5: the default weights on a concrete two-event batch. -/
theorem combine_features_unit_interval_witness :
    combineFeatures feDefault firstOccurrences evsC5 [[0], [0]] = .ok matC5w ∧
    ∀ col ∈ matC5w, ∀ x ∈ col, 0 ≤ x ∧ x ≤ 1 :=
  ⟨rfl, combine_features_unit_interval feDefault firstOccurrences evsC5 [[0], [0]]
    matC5w rfl (by norm_num [feDefault])⟩

/-- Counterexample to C5 as stated: the non-negative weight triple
(1.005, 0, 0) is accepted by the constructor (total within the 0.01
tolerance), yet the produced matrix contains an entry greater than 1. -/
theorem combine_features_exceeds_one_counterexample :
    (0 ≤ feC5.timeWeight ∧ 0 ≤ feC5.semanticWeight ∧ 0 ≤ feC5.contextWeight) ∧
    mkFeatureEngineer (201 / 200) 0 0 = .ok feC5 ∧
    combineFeatures feC5 firstOccurrences evsC5 [[0], [0]] = .ok matC5 ∧
    1 < matC5.headI.getLastD 0 :=
  ⟨by norm_num [feC5], rfl, rfl, by decide⟩

/-- C8: a `FeatureEngineer` is constructed exactly when the weight total is
within 0.01 of 1, and otherwise the construction fails with the weights
error; `combine_features` never raises the weights error. -/
theorem feature_engineer_weight_tolerance :
    (∀ tw sw cw : ℚ, mkFeatureEngineer tw sw cw =
        if |tw + sw + cw - 1| ≤ 1 / 100 then .ok ⟨tw, sw, cw⟩
        else .error (.weightsError (tw + sw + cw))) ∧
    (∀ (fe : FeatureEngineer) (sof : List (Option String) → List (Option String))
        (events : List Event) (embeddings : List (List ℚ)) (total : ℚ),
        combineFeatures fe sof events embeddings ≠
          Except.error (LinkError.weightsError total)) := by
  constructor
  · intro tw sw cw
    simp only [mkFeatureEngineer]
    by_cases h : |tw + sw + cw - 1| ≤ 1 / 100
    · rw [if_neg (not_lt.mpr h), if_pos h]
    · rw [if_pos (not_le.mp h), if_neg h]
  · intro fe sof events embeddings total
    simp only [combineFeatures]
    split_ifs <;> simp

/-- C10: constructing a `ClusteringEngine` with `min_samples` omitted
(`None`) sets the effective `min_samples` to `min_cluster_size`; because the
fallback is the truthiness expression `min_samples or min_cluster_size`, an
explicit `min_samples=0` is likewise replaced by `min_cluster_size`. -/
theorem min_samples_fallback_to_min_cluster_size :
    ∀ nNeighbors minClusterSize : Nat,
      mkClusteringEngine nNeighbors minClusterSize none =
        ⟨nNeighbors, minClusterSize, (minClusterSize : Int)⟩ ∧
      mkClusteringEngine nNeighbors minClusterSize (some 0) =
        ⟨nNeighbors, minClusterSize, (minClusterSize : Int)⟩ := by
  intro nn mcs
  exact ⟨rfl, by simp [mkClusteringEngine]⟩

/-- C7: with fewer events than `min_cluster_size`, the clusterer returns the
single noise group holding every event; the result does not depend on the
reduction and clustering oracles, which are therefore not consulted. -/
theorem cluster_below_min_size_all_noise (eng : ClusteringEngine)
    (reduceFn : Nat → List (List ℚ) → List (List ℚ))
    (fitPredict : Nat → Int → List (List ℚ) → List Int)
    (events : List Event) (features : List (List ℚ))
    (h : events.length < eng.minClusterSize) :
    eng.cluster reduceFn fitPredict events features = [(-1, events)] := by
  simp [ClusteringEngine.cluster, h]

/-- Witness for C7: two events against the default minimum cluster size 5. -/
theorem cluster_below_min_size_all_noise_witness :
    [mkEv 0 0, mkEv 1 1].length < engDefault.minClusterSize ∧
    engDefault.cluster (fun _ x => x) (fun _ _ _ => []) [mkEv 0 0, mkEv 1 1] [] =
      [(-1, [mkEv 0 0, mkEv 1 1])] :=
  ⟨by decide,
   cluster_below_min_size_all_noise engDefault (fun _ x => x) (fun _ _ _ => [])
     [mkEv 0 0, mkEv 1 1] [] (by decide)⟩

/-- C6: with fewer than 5 events in the store, `cluster_events` reports zero
clusters and all events as noise, leaves the stores untouched, and returns a
value independent of every pipeline collaborator, so no algorithmic stage is
invoked. -/
theorem cluster_events_fast_exit (m : ClusterServiceModel) (saveOk : Nat → Bool)
    (st : StoreState) (h : st.events.length < 5) :
    clusterEvents m saveOk st = .ok ({ clusters := 0, noise := st.events.length }, st) := by
  simp [clusterEvents, h]

/-- Witness for C6: a three-event store. -/
theorem cluster_events_fast_exit_witness :
    stThree.events.length < 5 ∧
    clusterEvents mRunA allSavesOk stThree = .ok ({ clusters := 0, noise := 3 }, stThree) :=
  ⟨by decide, cluster_events_fast_exit mRunA allSavesOk stThree (by decide)⟩

/-- C3, code-versus-spec divergence: `_generate_label` claims in its comment
to tokenize on non-alphanumeric boundaries but actually calls `str.split()`,
which splits on whitespace.  On a single event with content
"git-commit-foo" the code produces the label "Git-Commit-Foo", while the
specified algorithm yields the tokens git, commit, foo, discards the short
ones and produces "Commit". -/
theorem generate_label_splits_on_whitespace :
    generateLabel [evC3] = "Git-Commit-Foo" ∧ specGenerateLabel [evC3] = "Commit" :=
  ⟨rfl, rfl⟩

lemma sorted_head_le (l : List Event) (hs : List.Sorted timeLe l) :
    ∀ e ∈ l, l.headI.timestamp ≤ e.timestamp := by
  intro e he
  cases l with
  | nil => cases he
  | cons x xs =>
    rcases List.mem_cons.mp he with rfl | hmem
    · exact le_refl _
    · exact (List.pairwise_cons.mp hs).1 e hmem

lemma sorted_le_getLastD :
    ∀ (l : List Event), List.Sorted timeLe l →
      ∀ e ∈ l, ∀ d, e.timestamp ≤ (l.getLastD d).timestamp := by
  intro l
  induction l with
  | nil => intro _ e he; cases he
  | cons x xs ih =>
    intro hs e he d
    rw [List.getLastD_cons]
    obtain ⟨h1, h2⟩ := List.pairwise_cons.mp hs
    rcases List.mem_cons.mp he with rfl | hmem
    · cases xs with
      | nil => exact le_refl _
      | cons y ys =>
        have hmem2 : (y :: ys).getLastD e ∈ y :: ys := by
          rw [List.getLastD_eq_getLast?, List.getLast?_eq_getLast (y :: ys) (by simp)]
          simp [List.getLast_mem]
        exact h1 _ hmem2
    · exact ih h2 e hmem x

lemma headI_mem_of_ne_nil {l : List Event} (h : l ≠ []) : l.headI ∈ l := by
  cases l with
  | nil => exact absurd rfl h
  | cons x xs => exact List.mem_cons_self x xs

lemma getLastD_mem_of_ne_nil {l : List Event} (h : l ≠ []) (d : Event) :
    l.getLastD d ∈ l := by
  cases l with
  | nil => exact absurd rfl h
  | cons x xs =>
    rw [List.getLastD_eq_getLast?, List.getLast?_eq_getLast (x :: xs) (by simp)]
    simp [List.getLast_mem]

lemma sortByTime_perm (events : List Event) : (sortByTime events).Perm events :=
  List.perm_insertionSort timeLe events

lemma sortByTime_sorted (events : List Event) : List.Sorted timeLe (sortByTime events) :=
  List.sorted_insertionSort timeLe events

lemma sortByTime_ne_nil {events : List Event} (h : events ≠ []) : sortByTime events ≠ [] := by
  intro hnil
  apply h
  have hlen := (sortByTime_perm events).length_eq
  rw [hnil] at hlen
  exact List.length_eq_zero.mp hlen.symm

/-- C9: on every non-empty member list, `generate_cluster_summary` returns a
cluster whose start and end times are the minimum and maximum member
timestamps, and whose representative events are the ids of the first three
members of a chronologically sorted permutation of the members (fewer when
the cluster is smaller); a single-member cluster yields exactly one
representative and equal start and end times. -/
theorem generate_cluster_summary_time_and_representatives (cid : Int)
    (events : List Event) (hne : events ≠ []) :
    ∃ c, generateClusterSummary cid events = .ok c ∧
      (∀ e ∈ events, c.startTime ≤ e.timestamp ∧ e.timestamp ≤ c.endTime) ∧
      (∃ e ∈ events, e.timestamp = c.startTime) ∧
      (∃ e ∈ events, e.timestamp = c.endTime) ∧
      (∃ l, events.Perm l ∧ List.Sorted timeLe l ∧
        c.representativeEvents = (l.take 3).map Event.id) ∧
      c.representativeEvents.length = min 3 events.length ∧
      (events.length = 1 → c.representativeEvents.length = 1 ∧ c.startTime = c.endTime) := by
  have hperm := sortByTime_perm events
  have hsorted := sortByTime_sorted events
  have hlne := sortByTime_ne_nil hne
  refine ⟨summarizeCore cid events, by simp [generateClusterSummary, hne], ?_, ?_, ?_, ?_, ?_, ?_⟩
  · intro e he
    have hmem : e ∈ sortByTime events := hperm.mem_iff.mpr he
    exact ⟨sorted_head_le _ hsorted e hmem, sorted_le_getLastD _ hsorted e hmem default⟩
  · exact ⟨(sortByTime events).headI, hperm.mem_iff.mp (headI_mem_of_ne_nil hlne), rfl⟩
  · exact ⟨(sortByTime events).getLastD default,
      hperm.mem_iff.mp (getLastD_mem_of_ne_nil hlne default), rfl⟩
  · exact ⟨sortByTime events, hperm.symm, hsorted, rfl⟩
  · show (((sortByTime events).take 3).map Event.id).length = min 3 events.length
    rw [List.length_map, List.length_take, hperm.length_eq]
  · intro h1
    have hl1 : (sortByTime events).length = 1 := by rw [hperm.length_eq, h1]
    obtain ⟨a, ha⟩ := List.length_eq_one.mp hl1
    constructor
    · show (((sortByTime events).take 3).map Event.id).length = 1
      rw [List.length_map, List.length_take, hl1]
      rfl
    · show (sortByTime events).headI.timestamp = ((sortByTime events).getLastD default).timestamp
      rw [ha]
      rfl

/-- Witness for C9: a single-member cluster. -/
theorem generate_cluster_summary_time_and_representatives_witness :
    ∃ c, generateClusterSummary 3 [mkEv 42 7] = .ok c ∧
      (∀ e ∈ [mkEv 42 7], c.startTime ≤ e.timestamp ∧ e.timestamp ≤ c.endTime) ∧
      (∃ e ∈ [mkEv 42 7], e.timestamp = c.startTime) ∧
      (∃ e ∈ [mkEv 42 7], e.timestamp = c.endTime) ∧
      (∃ l, List.Perm [mkEv 42 7] l ∧ List.Sorted timeLe l ∧
        c.representativeEvents = (l.take 3).map Event.id) ∧
      c.representativeEvents.length = min 3 [mkEv 42 7].length ∧
      ([mkEv 42 7].length = 1 → c.representativeEvents.length = 1 ∧ c.startTime = c.endTime) :=
  generate_cluster_summary_time_and_representatives 3 [mkEv 42 7] (by decide)

lemma maxByCount_foldl (cwds : List (Option String)) :
    ∀ (xs : List (Option String)) (acc : Option String),
      (xs.foldl (fun a y => if cwds.count y > cwds.count a then y else a) acc) ∈ acc :: xs ∧
      cwds.count acc ≤
        cwds.count (xs.foldl (fun a y => if cwds.count y > cwds.count a then y else a) acc) ∧
      ∀ y ∈ xs, cwds.count y ≤
        cwds.count (xs.foldl (fun a y => if cwds.count y > cwds.count a then y else a) acc) := by
  intro xs
  induction xs with
  | nil =>
    intro acc
    exact ⟨List.mem_cons_self acc [], le_refl _, fun y hy => absurd hy (List.not_mem_nil y)⟩
  | cons z zs ih =>
    intro acc
    simp only [List.foldl_cons]
    obtain ⟨hmem, hle, hall⟩ := ih (if cwds.count z > cwds.count acc then z else acc)
    refine ⟨?_, ?_, ?_⟩
    · by_cases h : cwds.count z > cwds.count acc
      · rw [if_pos h] at hmem ⊢
        exact List.mem_cons.mpr (Or.inr hmem)
      · rw [if_neg h] at hmem ⊢
        rcases List.mem_cons.mp hmem with h2 | h2
        · exact List.mem_cons.mpr (Or.inl h2)
        · exact List.mem_cons.mpr (Or.inr (List.mem_cons.mpr (Or.inr h2)))
    · refine le_trans ?_ hle
      by_cases h : cwds.count z > cwds.count acc
      · rw [if_pos h]
        exact le_of_lt h
      · rw [if_neg h]
    · intro y hy
      rcases List.mem_cons.mp hy with rfl | h2
      · refine le_trans ?_ hle
        by_cases h : cwds.count y > cwds.count acc
        · rw [if_pos h]
        · rw [if_neg h]
          exact le_of_not_lt h
      · exact hall y h2

lemma mostCommonCwd_spec (order cwds : List (Option String))
    (hv : validSetOrder order cwds) (hne : cwds ≠ []) :
    mostCommonCwd order cwds ∈ cwds ∧
    ∀ x ∈ cwds, cwds.count x ≤ cwds.count (mostCommonCwd order cwds) := by
  obtain ⟨hnd, hsub, hsup⟩ := hv
  cases order with
  | nil =>
    exfalso
    cases cwds with
    | nil => exact hne rfl
    | cons c cs => exact absurd (hsup c (List.mem_cons_self c cs)) (List.not_mem_nil c)
  | cons x xs =>
    have hunf : mostCommonCwd (x :: xs) cwds =
        xs.foldl (fun a y => if cwds.count y > cwds.count a then y else a) x := by
      simp [mostCommonCwd, hne]
    obtain ⟨hmem, hle, hall⟩ := maxByCount_foldl cwds xs x
    rw [hunf]
    refine ⟨hsub _ hmem, ?_⟩
    intro y hy
    rcases List.mem_cons.mp (hsup y hy) with rfl | h2
    · exact hle
    · exact hall y h2

/-- C4, amended: the binary cwd column of `_extract_context_features` is 1
exactly for the events whose (non-empty) cwd equals the element selected by
taking the maximum of the set of cwds by count under the Python set
iteration order.  That element always attains the maximal cwd frequency of
the batch, so when the most frequent cwd is unique it is the most frequent
cwd; but a tie is broken by the unspecified set iteration order, not
necessarily by first-encountered value (see the counterexample).  Events
with no cwd contribute 0. -/
theorem context_cwd_column_most_frequent
    (sof : List (Option String) → List (Option String)) (events : List Event)
    (hv : validSetOrder (sof (events.map Event.cwd)) (events.map Event.cwd))
    (hne : events ≠ []) :
    ∃ mc : Option String,
      mc ∈ events.map Event.cwd ∧
      (∀ x ∈ events.map Event.cwd,
        (events.map Event.cwd).count x ≤ (events.map Event.cwd).count mc) ∧
      (extractContextFeatures sof events)[3]? = some (events.map (fun e =>
        if e.cwd ≠ none ∧ e.cwd ≠ some "" ∧ e.cwd = mc then (1 : ℚ) else 0)) := by
  have hcne : events.map Event.cwd ≠ [] := by
    intro h
    exact hne (List.map_eq_nil_iff.mp h)
  obtain ⟨hmem, hmax⟩ := mostCommonCwd_spec _ _ hv hcne
  refine ⟨mostCommonCwd (sof (events.map Event.cwd)) (events.map Event.cwd), hmem, hmax, ?_⟩
  have hcol : (extractContextFeatures sof events)[3]? =
      some (events.map (cwdIndicator
        (mostCommonCwd (sof (events.map Event.cwd)) (events.map Event.cwd)))) := rfl
  rw [hcol]
  congr 1
  refine List.map_congr_left ?_
  intro e _
  cases hc : e.cwd with
  | none => simp [cwdIndicator, hc]
  | some c =>
    simp only [cwdIndicator, hc]
    by_cases h1 : c = ""
    · simp [h1]
    · by_cases h2 : (some c : Option String) =
          mostCommonCwd (sof (events.map Event.cwd)) (events.map Event.cwd)
      · rw [← h2]
        simp [h1]
      · simp [h1, h2]

/-- Witness for C4: four events whose cwds are a, b, a, b under a set order
listing b first. -/
theorem context_cwd_column_most_frequent_witness :
    ∃ mc : Option String,
      mc ∈ evsC4.map Event.cwd ∧
      (∀ x ∈ evsC4.map Event.cwd,
        (evsC4.map Event.cwd).count x ≤ (evsC4.map Event.cwd).count mc) ∧
      (extractContextFeatures sofC4 evsC4)[3]? = some (evsC4.map (fun e =>
        if e.cwd ≠ none ∧ e.cwd ≠ some "" ∧ e.cwd = mc then (1 : ℚ) else 0)) :=
  context_cwd_column_most_frequent sofC4 evsC4 (by decide) (by decide)

/-- Counterexample to C4 as stated: with cwds a, b, a, b (a tie, a first
encountered) and the legitimate set iteration order listing b before a, the
code marks the b events, while the claimed first-encountered tie-break marks
the a events. -/
theorem context_cwd_tiebreak_counterexample :
    validSetOrder (sofC4 (evsC4.map Event.cwd)) (evsC4.map Event.cwd) ∧
    (extractContextFeatures sofC4 evsC4)[3]? = some [0, 1, 0, 1] ∧
    evsC4.map (fun e =>
      if e.cwd ≠ none ∧ e.cwd ≠ some "" ∧
          e.cwd = specMostFrequentCwd (evsC4.map Event.cwd) then (1 : ℚ) else 0) =
      [1, 0, 1, 0] ∧
    ([0, 1, 0, 1] : List ℚ) ≠ [1, 0, 1, 0] := by
  refine ⟨by decide, by decide, by decide, by decide⟩

lemma saveClusterStore_mem_of_ne {cs : List Cluster} {c c2 : Cluster}
    (hc : c ∈ cs) (hne : c.id ≠ c2.id) : c ∈ saveClusterStore cs c2 := by
  unfold saveClusterStore
  split_ifs with h
  · exact List.mem_map.mpr ⟨c, hc, if_neg hne⟩
  · exact List.mem_append.mpr (Or.inl hc)

lemma generateClusterSummary_ok {cid : Int} {evs : List Event} {c : Cluster}
    (h : generateClusterSummary cid evs = .ok c) : c = summarizeCore cid evs := by
  unfold generateClusterSummary at h
  split_ifs at h
  exact (Except.ok.inj h).symm

lemma persistLoop_error_clusters (saveOk : Nat → Bool) :
    ∀ (groups : List (Int × List Event)) (st : StoreState)
      (saveIdx numClusters noiseCount : Nat) (e : LinkError) (st2 : StoreState),
      persistLoop saveOk groups st saveIdx numClusters noiseCount = .error (e, st2) →
      ∃ k, k ≤ (nonNoiseGroups groups).length ∧
        st2.clusters = applySummaries st.clusters ((nonNoiseGroups groups).take k) ∧
        ∀ c ∈ st.clusters,
          (∀ g ∈ (nonNoiseGroups groups).take k, g.1 ≠ c.id) → c ∈ st2.clusters := by
  intro groups
  induction groups with
  | nil =>
    intro st saveIdx numClusters noiseCount e st2 h
    simp [persistLoop] at h
  | cons g rest ih =>
    intro st saveIdx numClusters noiseCount e st2 h
    obtain ⟨cid, evs⟩ := g
    by_cases hcid : cid = -1
    · simp only [persistLoop] at h
      rw [if_pos hcid] at h
      obtain ⟨k, hk, hcl, hunt⟩ := ih st saveIdx numClusters evs.length e st2 h
      have hnn : nonNoiseGroups ((cid, evs) :: rest) = nonNoiseGroups rest := by
        simp [nonNoiseGroups, hcid]
      rw [hnn]
      exact ⟨k, hk, hcl, hunt⟩
    · simp only [persistLoop] at h
      rw [if_neg hcid] at h
      have hnn : nonNoiseGroups ((cid, evs) :: rest) = (cid, evs) :: nonNoiseGroups rest := by
        simp [nonNoiseGroups, hcid]
      split at h
      next e2 hsum =>
        injection h with h3
        injection h3 with he hst
        subst hst
        rw [hnn]
        exact ⟨0, Nat.zero_le _, rfl, fun c0 hc0 _ => hc0⟩
      next c hsum =>
        by_cases hsave : saveOk saveIdx
        · rw [if_pos hsave] at h
          obtain ⟨k, hk, hcl, hunt⟩ := ih _ _ _ _ _ _ h
          have hc2 := generateClusterSummary_ok hsum
          rw [hnn]
          refine ⟨k + 1, Nat.succ_le_succ hk, ?_, ?_⟩
          · rw [List.take_succ_cons]
            rw [hc2] at hcl
            exact hcl
          · intro c0 hc0 hids
            rw [List.take_succ_cons] at hids
            have hhead : cid ≠ c0.id :=
              hids (cid, evs) (List.mem_cons_self _ _)
            have hmem2 : c0 ∈ saveClusterStore st.clusters c :=
              saveClusterStore_mem_of_ne hc0 (by rw [hc2]; exact Ne.symm hhead)
            exact hunt c0 hmem2 (fun g hg => hids g (List.mem_cons.mpr (Or.inr hg)))
        · rw [if_neg hsave] at h
          injection h with h3
          injection h3 with he hst
          subst hst
          rw [hnn]
          exact ⟨0, Nat.zero_le _, rfl, fun c0 hc0 _ => hc0⟩

/-- C1, amended: when a run of `cluster_events` aborts with an exception, the
cluster store is left holding the initial store with the summaries of a
prefix of the non-noise groups applied (each group is saved immediately
after it alone is summarized, so a failure partway through the loop leaves a
partial cluster set persisted); initial clusters whose ids were not among
the already-saved ones are still present.  The original claim said no
partial cluster set is ever persisted, see the counterexample. -/
theorem cluster_events_abort_keeps_saved_prefix (m : ClusterServiceModel)
    (saveOk : Nat → Bool) (st : StoreState) (e : LinkError) (st2 : StoreState)
    (h : clusterEvents m saveOk st = .error (e, st2)) :
    st2.clusters = st.clusters ∨
    ∃ groups k, pipelineGroups m st.events = .ok groups ∧
      k ≤ (nonNoiseGroups groups).length ∧
      st2.clusters = applySummaries st.clusters ((nonNoiseGroups groups).take k) ∧
      ∀ c ∈ st.clusters,
        (∀ g ∈ (nonNoiseGroups groups).take k, g.1 ≠ c.id) → c ∈ st2.clusters := by
  simp only [clusterEvents] at h
  split_ifs at h with h5 hnil
  split at h
  next e2 hpg =>
    injection h with h3
    injection h3 with he hst
    subst hst
    exact Or.inl rfl
  next groups hpg =>
    obtain ⟨k, hk, hcl, hunt⟩ := persistLoop_error_clusters saveOk groups st 0 0 0 e st2 h
    exact Or.inr ⟨groups, k, hpg, hk, hcl, hunt⟩

/-- Witness for C1: the concrete aborted run in which the second save fails. -/
theorem cluster_events_abort_keeps_saved_prefix_witness :
    clusterEvents mRunA secondSaveFails stRun0 = .error (.saveFailedError, stRunFail) ∧
    (stRunFail.clusters = stRun0.clusters ∨
     ∃ groups k, pipelineGroups mRunA stRun0.events = .ok groups ∧
       k ≤ (nonNoiseGroups groups).length ∧
       stRunFail.clusters = applySummaries stRun0.clusters ((nonNoiseGroups groups).take k) ∧
       ∀ c ∈ stRun0.clusters,
         (∀ g ∈ (nonNoiseGroups groups).take k, g.1 ≠ c.id) → c ∈ stRunFail.clusters) :=
  ⟨rfl, cluster_events_abort_keeps_saved_prefix mRunA secondSaveFails stRun0 _ _ rfl⟩

/-- Counterexample to C1 as stated: ten events are grouped into two clusters;
the first cluster save succeeds and the second raises.  The run aborts with
the first cluster already persisted, although the initial cluster store was
empty: a partial cluster set is persisted. -/
theorem cluster_events_partial_persist_counterexample :
    clusterEvents mRunA secondSaveFails stRun0 = .error (.saveFailedError, stRunFail) ∧
    stRun0.clusters = [] ∧ stRunFail.clusters ≠ [] :=
  ⟨rfl, rfl, by decide⟩

lemma firstKeys_append (ps : List (Event × Int)) (p : Event × Int) :
    firstKeys (ps ++ [p]) =
      if p.2 ∈ firstKeys ps then firstKeys ps else firstKeys ps ++ [p.2] := by
  unfold firstKeys
  rw [List.foldl_append]
  rfl

lemma mem_firstKeys_aux (k : Int) :
    ∀ (ps : List (Event × Int)) (ks : List Int),
      k ∈ ps.foldl (fun ks p => if p.2 ∈ ks then ks else ks ++ [p.2]) ks ↔
        k ∈ ks ∨ k ∈ ps.map Prod.snd := by
  intro ps
  induction ps with
  | nil => intro ks; simp
  | cons q qs ih =>
    intro ks
    rw [List.foldl_cons, ih]
    by_cases hq : q.2 ∈ ks
    · rw [if_pos hq]
      simp only [List.map_cons, List.mem_cons]
      constructor
      · rintro (h | h)
        · exact Or.inl h
        · exact Or.inr (Or.inr h)
      · rintro (h | h | h)
        · exact Or.inl h
        · exact Or.inl (h ▸ hq)
        · exact Or.inr h
    · rw [if_neg hq]
      simp only [List.mem_append, List.mem_singleton, List.map_cons, List.mem_cons]
      tauto

lemma mem_firstKeys {k : Int} {ps : List (Event × Int)} :
    k ∈ firstKeys ps ↔ k ∈ ps.map Prod.snd := by
  have h := mem_firstKeys_aux k ps []
  simpa [firstKeys] using h

lemma nodup_firstKeys_aux :
    ∀ (ps : List (Event × Int)) (ks : List Int), ks.Nodup →
      (ps.foldl (fun ks p => if p.2 ∈ ks then ks else ks ++ [p.2]) ks).Nodup := by
  intro ps
  induction ps with
  | nil => intro ks h; exact h
  | cons q qs ih =>
    intro ks hks
    rw [List.foldl_cons]
    by_cases hq : q.2 ∈ ks
    · rw [if_pos hq]
      exact ih ks hks
    · rw [if_neg hq]
      refine ih _ ?_
      rw [List.nodup_append]
      exact ⟨hks, List.nodup_singleton _, fun a ha hb => hq ((List.mem_singleton.mp hb) ▸ ha)⟩

lemma nodup_firstKeys (ps : List (Event × Int)) : (firstKeys ps).Nodup :=
  nodup_firstKeys_aux ps [] List.nodup_nil

lemma selectKey_append (ps : List (Event × Int)) (p : Event × Int) (k : Int) :
    selectKey (ps ++ [p]) k =
      selectKey ps k ++ if p.2 = k then [p.1] else [] := by
  unfold selectKey
  rw [List.filter_append, List.map_append]
  congr 1
  by_cases h : p.2 = k
  · simp [h]
  · simp [h]

lemma selectKey_eq_nil_of_not_mem {ps : List (Event × Int)} {k : Int}
    (hk : k ∉ firstKeys ps) : selectKey ps k = [] := by
  unfold selectKey
  have hfil : ps.filter (fun p => p.2 = k) = [] := by
    rw [List.filter_eq_nil_iff]
    intro q hq hq2
    apply hk
    rw [mem_firstKeys]
    have : q.2 = k := by simpa using hq2
    exact this ▸ List.mem_map.mpr ⟨q, hq, rfl⟩
  rw [hfil]
  rfl

lemma groupsOf_any_iff (ps : List (Event × Int)) (p : Event × Int) :
    (groupsOf ps).any (fun g => g.1 = p.2) = true ↔ p.2 ∈ firstKeys ps := by
  unfold groupsOf
  rw [List.any_eq_true]
  constructor
  · rintro ⟨g, hg, hg2⟩
    rcases List.mem_map.mp hg with ⟨k, hk, rfl⟩
    have hkp : k = p.2 := by simpa using hg2
    exact hkp ▸ hk
  · intro hp
    exact ⟨(p.2, selectKey ps p.2), List.mem_map.mpr ⟨p.2, hp, rfl⟩, by simp⟩

lemma groupsOf_append (ps : List (Event × Int)) (p : Event × Int) :
    groupsOf (ps ++ [p]) =
      if (groupsOf ps).any (fun g => g.1 = p.2) then
        (groupsOf ps).map (fun g => if g.1 = p.2 then (g.1, g.2 ++ [p.1]) else g)
      else groupsOf ps ++ [(p.2, [p.1])] := by
  by_cases hp : p.2 ∈ firstKeys ps
  · rw [if_pos ((groupsOf_any_iff ps p).mpr hp)]
    unfold groupsOf
    rw [firstKeys_append, if_pos hp, List.map_map]
    apply List.map_congr_left
    intro k hk
    by_cases hkp : k = p.2
    · simp [Function.comp, hkp, selectKey_append]
    · have hpk : ¬p.2 = k := fun h => hkp h.symm
      simp [Function.comp, hkp, hpk, selectKey_append]
  · rw [if_neg (fun hc => hp ((groupsOf_any_iff ps p).mp hc))]
    unfold groupsOf
    rw [firstKeys_append, if_neg hp, List.map_append]
    congr 1
    · apply List.map_congr_left
      intro k hk
      have hpk : ¬p.2 = k := fun h => hp (h ▸ hk)
      simp [selectKey_append, hpk]
    · have hsel : selectKey ps p.2 = [] := selectKey_eq_nil_of_not_mem hp
      simp [selectKey_append, hsel]

lemma groupByLabel_eq_groupsOf : ∀ ps : List (Event × Int), groupByLabel ps = groupsOf ps := by
  intro ps
  induction ps using List.reverseRecOn with
  | nil => rfl
  | append_singleton ps p ih =>
    have hstep : groupByLabel (ps ++ [p]) =
        (if (groupByLabel ps).any (fun g => g.1 = p.2) then
          (groupByLabel ps).map (fun g => if g.1 = p.2 then (g.1, g.2 ++ [p.1]) else g)
        else groupByLabel ps ++ [(p.2, [p.1])]) := by
      unfold groupByLabel
      rw [List.foldl_append]
      rfl
    rw [hstep, ih, ← groupsOf_append]

lemma persistLoop_ok_state (saveOk : Nat → Bool) :
    ∀ (groups : List (Int × List Event)) (st : StoreState)
      (saveIdx numClusters noiseCount : Nat) (res : RunResult) (st2 : StoreState),
      persistLoop saveOk groups st saveIdx numClusters noiseCount = .ok (res, st2) →
      st2.clusters = groups.foldl
        (fun cs g => if g.1 = -1 then cs else saveClusterStore cs (summarizeCore g.1 g.2))
        st.clusters ∧
      st2.events = groups.foldl
        (fun es g => if g.1 = -1 then es else saveEventStore es (g.2.map (setCid g.1)))
        st.events := by
  intro groups
  induction groups with
  | nil =>
    intro st saveIdx numClusters noiseCount res st2 h
    simp only [persistLoop] at h
    injection h with h3
    injection h3 with hres hst
    subst hst
    exact ⟨rfl, rfl⟩
  | cons g rest ih =>
    intro st saveIdx numClusters noiseCount res st2 h
    obtain ⟨cid, evs⟩ := g
    rw [List.foldl_cons, List.foldl_cons]
    by_cases hcid : cid = -1
    · simp only [persistLoop] at h
      rw [if_pos hcid] at h
      rw [if_pos hcid, if_pos hcid]
      exact ih st saveIdx numClusters evs.length res st2 h
    · simp only [persistLoop] at h
      rw [if_neg hcid] at h
      rw [if_neg hcid, if_neg hcid]
      split at h
      next e2 hsum => cases h
      next c hsum =>
        by_cases hsave : saveOk saveIdx
        · rw [if_pos hsave] at h
          have hc2 := generateClusterSummary_ok hsum
          subst hc2
          exact ih _ _ _ _ _ _ h
        · rw [if_neg hsave] at h
          cases h

lemma saveClusterStore_of_fresh {cs : List Cluster} {c : Cluster}
    (h : ∀ d ∈ cs, d.id ≠ c.id) : saveClusterStore cs c = cs ++ [c] := by
  unfold saveClusterStore
  rw [if_neg]
  intro hany
  rcases List.any_eq_true.mp hany with ⟨d, hd, hd2⟩
  exact h d hd (by simpa using hd2)

lemma nonNoiseGroups_cons_noise {g : Int × List Event} {rest : List (Int × List Event)}
    (hg : g.1 = -1) : nonNoiseGroups (g :: rest) = nonNoiseGroups rest := by
  simp [nonNoiseGroups, hg]

lemma nonNoiseGroups_cons_keep {g : Int × List Event} {rest : List (Int × List Event)}
    (hg : g.1 ≠ -1) : nonNoiseGroups (g :: rest) = g :: nonNoiseGroups rest := by
  simp [nonNoiseGroups, hg]

lemma clusters_foldl_eq :
    ∀ (groups : List (Int × List Event)) (cs : List Cluster),
      ((nonNoiseGroups groups).map Prod.fst).Nodup →
      (∀ g ∈ nonNoiseGroups groups, ∀ c ∈ cs, c.id ≠ g.1) →
      groups.foldl
        (fun cs g => if g.1 = -1 then cs else saveClusterStore cs (summarizeCore g.1 g.2)) cs =
        cs ++ (nonNoiseGroups groups).map (fun g => summarizeCore g.1 g.2) := by
  intro groups
  induction groups with
  | nil => intro cs _ _; simp [nonNoiseGroups]
  | cons g rest ih =>
    intro cs hnd hdisj
    rw [List.foldl_cons]
    by_cases hg : g.1 = -1
    · rw [if_pos hg, nonNoiseGroups_cons_noise hg] at *
      exact ih cs hnd hdisj
    · rw [nonNoiseGroups_cons_keep hg] at hnd hdisj
      rw [if_neg hg]
      have hfresh : ∀ d ∈ cs, d.id ≠ (summarizeCore g.1 g.2).id := by
        intro d hd
        exact hdisj g (List.mem_cons_self _ _) d hd
      rw [saveClusterStore_of_fresh hfresh]
      rw [List.map_cons] at hnd
      obtain ⟨hnotin, hndrest⟩ := List.nodup_cons.mp hnd
      rw [ih (cs ++ [summarizeCore g.1 g.2]) hndrest ?_, nonNoiseGroups_cons_keep hg]
      · simp
      · intro g2 hg2 c hc
        rcases List.mem_append.mp hc with hc1 | hc1
        · exact hdisj g2 (List.mem_cons.mpr (Or.inr hg2)) c hc1
        · rw [List.mem_singleton.mp hc1]
          show g.1 ≠ g2.1
          intro hgg
          exact hnotin (hgg ▸ List.mem_map.mpr ⟨g2, hg2, rfl⟩)

lemma setCid_id (k : Int) (e : Event) : (setCid k e).id = e.id := rfl

lemma zip_map_fst (l1 : List Event) : ∀ l2 : List Int,
    (l1.zip l2).map Prod.fst = l1.take l2.length := by
  induction l1 with
  | nil => intro l2; simp
  | cons a as ih =>
    intro l2
    cases l2 with
    | nil => simp
    | cons b bs => simp [ih bs]

lemma saveEventOne_of_mem {es : List Event} {b : Event}
    (hnd : (es.map Event.id).Nodup) (hb : b ∈ es) (k : Int) :
    saveEventOne es (setCid k b) = es.map (fun d => if d.id = b.id then setCid k d else d) := by
  unfold saveEventOne
  rw [if_pos (List.any_eq_true.mpr ⟨b, hb, by simp [setCid]⟩)]
  apply List.map_congr_left
  intro d hd
  simp only [setCid_id]
  by_cases h : d.id = b.id
  · rw [if_pos h, if_pos h]
    have hdb : d = b := List.inj_on_of_nodup_map hnd hd hb h
    rw [hdb]
  · rw [if_neg h, if_neg h]

lemma saveEventStore_setCid (k : Int) :
    ∀ (evs es : List Event),
      (es.map Event.id).Nodup → (evs.map Event.id).Nodup → (∀ b ∈ evs, b ∈ es) →
      saveEventStore es (evs.map (setCid k)) =
        es.map (fun d => if d.id ∈ evs.map Event.id then setCid k d else d) := by
  intro evs
  induction evs with
  | nil =>
    intro es _ _ _
    simp [saveEventStore]
  | cons b bs ih =>
    intro es hnd hbnd hsub
    have hb : b ∈ es := hsub b (List.mem_cons_self _ _)
    rw [List.map_cons]
    unfold saveEventStore
    rw [List.foldl_cons, saveEventOne_of_mem hnd hb k]
    have hids2 : (es.map (fun d => if d.id = b.id then setCid k d else d)).map Event.id =
        es.map Event.id := by
      rw [List.map_map]
      apply List.map_congr_left
      intro d _
      by_cases h : d.id = b.id <;> simp [Function.comp, h, setCid_id]
    have hnd2 : ((es.map (fun d => if d.id = b.id then setCid k d else d)).map Event.id).Nodup := by
      rw [hids2]
      exact hnd
    obtain ⟨hbid0, hbsnd⟩ :=
      (by simpa using hbnd : (∀ x ∈ bs, ¬x.id = b.id) ∧ (bs.map Event.id).Nodup)
    have hbid : b.id ∉ bs.map Event.id := by
      intro hmem
      rcases List.mem_map.mp hmem with ⟨x, hx, hxe⟩
      exact hbid0 x hx hxe
    have hsub2 : ∀ b2 ∈ bs, b2 ∈ es.map (fun d => if d.id = b.id then setCid k d else d) := by
      intro b2 hb2
      have hb2es : b2 ∈ es := hsub b2 (List.mem_cons.mpr (Or.inr hb2))
      have hneq : b2.id ≠ b.id := fun h => hbid (h ▸ List.mem_map.mpr ⟨b2, hb2, rfl⟩)
      exact List.mem_map.mpr ⟨b2, hb2es, by rw [if_neg hneq]⟩
    have hih := ih (es.map (fun d => if d.id = b.id then setCid k d else d)) hnd2 hbsnd hsub2
    unfold saveEventStore at hih
    rw [hih, List.map_map]
    apply List.map_congr_left
    intro d _
    simp only [Function.comp, List.map_cons, List.mem_cons, setCid_id]
    by_cases h1 : d.id = b.id
    · rw [if_pos h1]
      have hnotbs : d.id ∉ bs.map Event.id := by rw [h1]; exact hbid
      rw [if_neg (by rw [setCid_id]; exact hnotbs), if_pos (Or.inl h1)]
    · rw [if_neg h1]
      by_cases h2 : d.id ∈ bs.map Event.id
      · rw [if_pos h2, if_pos (Or.inr h2)]
      · rw [if_neg h2, if_neg ?_]
        rintro (h | h)
        · exact h1 h
        · exact h2 h

lemma events_foldl_map :
    ∀ (groups : List (Int × List Event)) (es : List Event),
      (es.map Event.id).Nodup →
      (∀ g ∈ groups, g.1 ≠ -1 → (g.2.map Event.id).Nodup ∧ ∀ b ∈ g.2, b ∈ es) →
      groups.Pairwise (fun g1 g2 => g1.1 ≠ -1 → g2.1 ≠ -1 →
        ∀ i ∈ g1.2.map Event.id, i ∉ g2.2.map Event.id) →
      groups.foldl
        (fun es g => if g.1 = -1 then es else saveEventStore es (g.2.map (setCid g.1))) es =
        es.map (fun d => groups.foldl (fun x g =>
          if g.1 = -1 then x else if x.id ∈ g.2.map Event.id then setCid g.1 x else x) d) := by
  intro groups
  induction groups with
  | nil => intro es _ _ _; simp
  | cons g rest ih =>
    intro es hnd hsub hdisj
    rw [List.foldl_cons]
    obtain ⟨hdhead, hdrest⟩ := List.pairwise_cons.mp hdisj
    by_cases hg : g.1 = -1
    · rw [if_pos hg]
      rw [ih es hnd (fun g2 hg2 => hsub g2 (List.mem_cons.mpr (Or.inr hg2))) hdrest]
      apply List.map_congr_left
      intro d _
      rw [List.foldl_cons, if_pos hg]
    · rw [if_neg hg]
      obtain ⟨hgnd, hgsub⟩ := hsub g (List.mem_cons_self _ _) hg
      rw [saveEventStore_setCid g.1 g.2 es hnd hgnd hgsub]
      have hids : (es.map (fun d => if d.id ∈ g.2.map Event.id then setCid g.1 d else d)).map
          Event.id = es.map Event.id := by
        rw [List.map_map]
        apply List.map_congr_left
        intro d _
        by_cases h : d.id ∈ g.2.map Event.id <;> simp [Function.comp, h, setCid_id]
      have hnd2 : ((es.map (fun d => if d.id ∈ g.2.map Event.id then setCid g.1 d else d)).map
          Event.id).Nodup := by
        rw [hids]
        exact hnd
      have hsub2 : ∀ g2 ∈ rest, g2.1 ≠ -1 → (g2.2.map Event.id).Nodup ∧
          ∀ b ∈ g2.2, b ∈ es.map (fun d => if d.id ∈ g.2.map Event.id then setCid g.1 d else d) := by
        intro g2 hg2 hg2n
        obtain ⟨hn, hs⟩ := hsub g2 (List.mem_cons.mpr (Or.inr hg2)) hg2n
        refine ⟨hn, ?_⟩
        intro b hb
        have hbes := hs b hb
        have hbnot : b.id ∉ g.2.map Event.id := by
          intro hmem
          exact hdhead g2 hg2 hg hg2n b.id hmem (List.mem_map.mpr ⟨b, hb, rfl⟩)
        exact List.mem_map.mpr ⟨b, hbes, by rw [if_neg hbnot]⟩
      rw [ih _ hnd2 hsub2 hdrest, List.map_map]
      apply List.map_congr_left
      intro d _
      simp only [Function.comp]
      rw [List.foldl_cons, if_neg hg]

lemma foldl_step_untouched :
    ∀ (groups : List (Int × List Event)) (x : Event),
      (∀ g ∈ groups, g.1 ≠ -1 → x.id ∉ g.2.map Event.id) →
      groups.foldl (fun x g =>
        if g.1 = -1 then x else if x.id ∈ g.2.map Event.id then setCid g.1 x else x) x = x := by
  intro groups
  induction groups with
  | nil => intro x _; rfl
  | cons g rest ih =>
    intro x hx
    rw [List.foldl_cons]
    by_cases hg : g.1 = -1
    · rw [if_pos hg]
      exact ih x (fun g2 h => hx g2 (List.mem_cons.mpr (Or.inr h)))
    · rw [if_neg hg, if_neg (hx g (List.mem_cons_self _ _) hg)]
      exact ih x (fun g2 h => hx g2 (List.mem_cons.mpr (Or.inr h)))

lemma foldl_assign_clusterId :
    ∀ (groups : List (Int × List Event)) (x : Event) (k : Int),
      x.clusterId = none →
      groups.Pairwise (fun g1 g2 => g1.1 ≠ -1 → g2.1 ≠ -1 →
        ∀ i ∈ g1.2.map Event.id, i ∉ g2.2.map Event.id) →
      ((groups.foldl (fun x g =>
          if g.1 = -1 then x else if x.id ∈ g.2.map Event.id then setCid g.1 x else x) x).clusterId
        = some k ↔ ∃ g ∈ groups, g.1 ≠ -1 ∧ g.1 = k ∧ x.id ∈ g.2.map Event.id) := by
  intro groups
  induction groups with
  | nil =>
    intro x k hx _
    simp [hx]
  | cons g rest ih =>
    intro x k hx hdisj
    obtain ⟨hdhead, hdrest⟩ := List.pairwise_cons.mp hdisj
    rw [List.foldl_cons]
    by_cases hg : g.1 = -1
    · rw [if_pos hg, ih x k hx hdrest]
      constructor
      · rintro ⟨g2, hg2, hn, hk, hm⟩
        exact ⟨g2, List.mem_cons.mpr (Or.inr hg2), hn, hk, hm⟩
      · rintro ⟨g2, hg2, hn, hk, hm⟩
        rcases List.mem_cons.mp hg2 with rfl | hg2r
        · exact absurd hg hn
        · exact ⟨g2, hg2r, hn, hk, hm⟩
    · rw [if_neg hg]
      by_cases hmem : x.id ∈ g.2.map Event.id
      · rw [if_pos hmem]
        have huntouch : ∀ g2 ∈ rest, g2.1 ≠ -1 → (setCid g.1 x).id ∉ g2.2.map Event.id := by
          intro g2 hg2 hg2n
          rw [setCid_id]
          exact hdhead g2 hg2 hg hg2n x.id hmem
        rw [foldl_step_untouched rest _ huntouch]
        show some g.1 = some k ↔ _
        constructor
        · intro hk
          exact ⟨g, List.mem_cons_self _ _, hg, Option.some.inj hk, hmem⟩
        · rintro ⟨g2, hg2, hn2, hk2, hmem2⟩
          rcases List.mem_cons.mp hg2 with rfl | hg2r
          · exact congrArg some hk2
          · exact absurd hmem2 (hdhead g2 hg2r hg hn2 x.id hmem)
      · rw [if_neg hmem, ih x k hx hdrest]
        constructor
        · rintro ⟨g2, hg2, hn, hk, hm⟩
          exact ⟨g2, List.mem_cons.mpr (Or.inr hg2), hn, hk, hm⟩
        · rintro ⟨g2, hg2, hn, hk, hm⟩
          rcases List.mem_cons.mp hg2 with rfl | hg2r
          · exact absurd hm hmem
          · exact ⟨g2, hg2r, hn, hk, hm⟩

lemma countP_mem_of_nodup {l : List Nat} (hl : l.Nodup) (S : List Nat) (hS : S.Nodup)
    (hsub : ∀ i ∈ S, i ∈ l) : l.countP (fun i => decide (i ∈ S)) = S.length := by
  have hperm : List.Perm (l.filter (fun i => decide (i ∈ S))) S := by
    rw [List.perm_ext_iff_of_nodup (hl.filter _) hS]
    intro a
    simp only [List.mem_filter, decide_eq_true_eq]
    exact ⟨fun h => h.2, fun h => ⟨hsub a h, h⟩⟩
  rw [List.countP_eq_length_filter, hperm.length_eq]

/-- C2, amended: for every completed (successful) clustering run, the noise
id -1 never appears among the clusters the run persists; and when the run
starts from a store with no prior cluster assignments and an empty cluster
store (e.g. the first run), every persisted cluster records an event count
equal to the number of stored events whose cluster id equals that cluster id.
Across runs the original claim fails: stale clusters and stale assignments
from prior runs are not cleared, see the counterexample. -/
theorem cluster_run_id_and_count_invariant (m : ClusterServiceModel) (saveOk : Nat → Bool)
    (st : StoreState) (res : RunResult) (st2 : StoreState)
    (hids : (st.events.map Event.id).Nodup)
    (hclean : ∀ e ∈ st.events, e.clusterId = none)
    (hempty : st.clusters = [])
    (h : clusterEvents m saveOk st = .ok (res, st2)) :
    (∀ c ∈ st2.clusters, c.id ≠ -1) ∧
    ∀ c ∈ st2.clusters,
      st2.events.countP (fun e => decide (e.clusterId = some c.id)) = c.eventCount := by
  simp only [clusterEvents] at h
  split_ifs at h with h5 hnil
  · injection h with h3
    injection h3 with hres hst
    subst hst
    simp [hempty]
  · injection h with h3
    injection h3 with hres hst
    subst hst
    simp [hempty]
  · split at h
    next e2 hpg => cases h
    next groups hpg =>
      obtain ⟨hcl, hev⟩ := persistLoop_ok_state saveOk groups st 0 0 0 res st2 h
      simp only [pipelineGroups] at hpg
      split at hpg
      next e3 hcf => cases hpg
      next feats hcf =>
        have hgroups := Except.ok.inj hpg
        simp only [ClusteringEngine.cluster] at hgroups
        by_cases hsmall : st.events.length < m.engine.minClusterSize
        · rw [if_pos hsmall] at hgroups
          subst hgroups
          have hcl2 : st2.clusters = st.clusters := by
            rw [hcl]
            rfl
          rw [hempty] at hcl2
          constructor <;> intro c hc <;> rw [hcl2] at hc <;> cases hc
        · rw [if_neg hsmall, groupByLabel_eq_groupsOf] at hgroups
          subst hgroups
          set pairs := st.events.zip
            (m.fitPredict m.engine.minClusterSize m.engine.minSamples
              (m.reduceFn m.engine.nNeighbors feats)) with hpairsdef
          have hfstsub : ∀ b ∈ pairs.map Prod.fst, b ∈ st.events := by
            rw [zip_map_fst]
            exact fun b hb => List.take_subset _ _ hb
          have hpnd : (pairs.map (fun p => p.1.id)).Nodup := by
            have hm : pairs.map (fun p => p.1.id) = (pairs.map Prod.fst).map Event.id := by
              rw [List.map_map]
              rfl
            rw [hm, zip_map_fst]
            exact List.Nodup.sublist ((List.take_sublist _ _).map Event.id) hids
          have hgform : ∀ g ∈ groupsOf pairs,
              g.1 ∈ firstKeys pairs ∧ g.2 = selectKey pairs g.1 := by
            intro g hg
            rcases List.mem_map.mp hg with ⟨k, hk, rfl⟩
            exact ⟨hk, rfl⟩
          have hgsubnd : ∀ g ∈ groupsOf pairs,
              (g.2.map Event.id).Nodup ∧ ∀ b ∈ g.2, b ∈ st.events := by
            intro g hg
            obtain ⟨hk, hsel⟩ := hgform g hg
            constructor
            · rw [hsel]
              have hm : (selectKey pairs g.1).map Event.id =
                  (pairs.filter (fun p => p.2 = g.1)).map (fun p => p.1.id) := by
                unfold selectKey
                rw [List.map_map]
                rfl
              rw [hm]
              exact List.Nodup.sublist ((List.filter_sublist _).map _) hpnd
            · intro b hb
              rw [hsel] at hb
              rcases List.mem_map.mp hb with ⟨p, hp, rfl⟩
              exact hfstsub p.1 (List.mem_map.mpr ⟨p, List.mem_of_mem_filter hp, rfl⟩)
          have hdisj : (groupsOf pairs).Pairwise (fun g1 g2 => g1.1 ≠ -1 → g2.1 ≠ -1 →
              ∀ i ∈ g1.2.map Event.id, i ∉ g2.2.map Event.id) := by
            unfold groupsOf
            rw [List.pairwise_map]
            refine List.Pairwise.imp ?_ (nodup_firstKeys pairs)
            intro k1 k2 hne _ _ i hi1 hi2
            rcases List.mem_map.mp hi1 with ⟨b1, hb1, he1⟩
            rcases List.mem_map.mp hi2 with ⟨b2, hb2, he2⟩
            rcases List.mem_map.mp hb1 with ⟨p1, hp1, rfl⟩
            rcases List.mem_map.mp hb2 with ⟨p2, hp2, rfl⟩
            have hk1 : p1.2 = k1 := by simpa using List.of_mem_filter hp1
            have hk2 : p2.2 = k2 := by simpa using List.of_mem_filter hp2
            have hpeq : p1 = p2 :=
              List.inj_on_of_nodup_map hpnd (List.mem_of_mem_filter hp1)
                (List.mem_of_mem_filter hp2) (he1.trans he2.symm)
            apply hne
            rw [← hk1, ← hk2, hpeq]
          have hkeys : ((nonNoiseGroups (groupsOf pairs)).map Prod.fst).Nodup := by
            have hkeys0 : (groupsOf pairs).map Prod.fst = firstKeys pairs := by
              unfold groupsOf
              rw [List.map_map,
                show (Prod.fst ∘ fun k => (k, selectKey pairs k)) = id from rfl,
                List.map_id]
            exact List.Nodup.sublist ((List.filter_sublist _).map Prod.fst)
              (hkeys0 ▸ nodup_firstKeys pairs)
          rw [hempty] at hcl
          rw [clusters_foldl_eq (groupsOf pairs) [] hkeys
            (fun _ _ c hc => absurd hc (List.not_mem_nil c)), List.nil_append] at hcl
          rw [events_foldl_map (groupsOf pairs) st.events hids
            (fun g hg _ => hgsubnd g hg) hdisj] at hev
          constructor
          · intro c hc
            rw [hcl] at hc
            rcases List.mem_map.mp hc with ⟨gr, hg, rfl⟩
            have hgn : gr.1 ≠ -1 := by simpa using List.of_mem_filter hg
            exact hgn
          · intro c hc
            rw [hcl] at hc
            rcases List.mem_map.mp hc with ⟨gr, hg, rfl⟩
            have hgrn : gr.1 ≠ -1 := by simpa using List.of_mem_filter hg
            have hgrmem : gr ∈ groupsOf pairs := List.mem_of_mem_filter hg
            have hndg : (gr.2.map Event.id).Nodup := (hgsubnd gr hgrmem).1
            have hsubg : ∀ i ∈ gr.2.map Event.id, i ∈ st.events.map Event.id := by
              intro i hi
              rcases List.mem_map.mp hi with ⟨b, hb, rfl⟩
              exact List.mem_map.mpr ⟨b, (hgsubnd gr hgrmem).2 b hb, rfl⟩
            have hcongr : ∀ e ∈ st.events,
                decide ((List.foldl (fun x g => if g.1 = -1 then x
                    else if x.id ∈ g.2.map Event.id then setCid g.1 x else x) e
                    (groupsOf pairs)).clusterId = some gr.1) = true ↔
                decide (e.id ∈ gr.2.map Event.id) = true := by
              intro e he
              simp only [decide_eq_true_eq]
              rw [foldl_assign_clusterId (groupsOf pairs) e gr.1 (hclean e he) hdisj]
              constructor
              · rintro ⟨g2, hg2, hn2, hk2, hm2⟩
                rw [(hgform gr hgrmem).2, ← hk2, ← (hgform g2 hg2).2]
                exact hm2
              · intro hm
                exact ⟨gr, hgrmem, hgrn, rfl, hm⟩
            show st2.events.countP (fun e => decide (e.clusterId = some gr.1)) = gr.2.length
            have hstep1 : st2.events.countP (fun e => decide (e.clusterId = some gr.1)) =
                st.events.countP (fun e =>
                  decide ((List.foldl (fun x g => if g.1 = -1 then x
                    else if x.id ∈ g.2.map Event.id then setCid g.1 x else x) e
                    (groupsOf pairs)).clusterId = some gr.1)) := by
              rw [hev]
              exact List.countP_map _ _ _
            have hstep2 := List.countP_congr hcongr
            have hstep3 : st.events.countP (fun e => decide (e.id ∈ gr.2.map Event.id)) =
                (st.events.map Event.id).countP (fun i => decide (i ∈ gr.2.map Event.id)) := by
              rw [List.countP_map]
              rfl
            have hstep4 := countP_mem_of_nodup hids (gr.2.map Event.id) hndg hsubg
            rw [hstep1, hstep2, hstep3, hstep4, List.length_map]

/-- Witness for C2: the first run over the clean ten-event store. -/
theorem cluster_run_id_and_count_invariant_witness :
    ((stRun0.events.map Event.id).Nodup ∧ (∀ e ∈ stRun0.events, e.clusterId = none) ∧
      stRun0.clusters = []) ∧
    ((∀ c ∈ stRunA.clusters, c.id ≠ -1) ∧
     ∀ c ∈ stRunA.clusters,
       stRunA.events.countP (fun e => decide (e.clusterId = some c.id)) = c.eventCount) :=
  ⟨⟨by decide, by decide, rfl⟩,
   cluster_run_id_and_count_invariant mRunA allSavesOk stRun0 ⟨2, 0⟩ stRunA
     (by decide) (by decide) rfl rfl⟩

/-- Counterexample to C2 as stated: run A persists clusters 0 and 1 (five
events each); run B then reassigns all ten events to cluster 0 and overwrites
cluster 0 only.  The stale persisted cluster 1 still records event count 5,
but no stored event has cluster id 1 any more. -/
theorem cluster_run_event_count_counterexample :
    clusterEvents mRunA allSavesOk stRun0 = .ok (⟨2, 0⟩, stRunA) ∧
    clusterEvents mRunB allSavesOk stRunA = .ok (⟨1, 0⟩, stRunB) ∧
    stRunB.clusters.map (fun c => (c.id, c.eventCount)) = [(0, 10), (1, 5)] ∧
    stRunB.events.countP (fun e => decide (e.clusterId = some 1)) = 0 :=
  ⟨rfl, rfl, rfl, rfl⟩

end LinkNower
